import Mathlib

/-
Verification of the quadtree nearest-neighbor core of src/nearestNeighbor.js.

Modelling conventions, applied uniformly:

* Coordinates are embedded as exact rationals (ℚ).  The source works on JS
  numbers; all claims under study are order/equality statements about the
  computed distances, which the rational embedding states exactly.

* Distances are represented by their squares.  Every distance the source
  produces is of the form `Math.sqrt q` for a nonnegative `q`
  (`Math.abs a = Math.sqrt (a*a)`, `pythagoreanDistance = Math.sqrt (a*a+b*b)`),
  and the source only ever compares distances with `<`, takes `Math.min` of
  them, or hands them back to the caller.  Since `Real.sqrt` is a strictly
  monotone bijection on nonnegative arguments, comparing, minimizing and
  testing equality of squares is equivalent to doing so on the distances
  themselves; the bridge lemmas `sqRepr_lt_iff`, `sqRepr_eq_iff` and
  `sqRepr_min` below record this.  So `min(|y-b|, |t-y|)` is embedded as
  `min ((y-b)*(y-b)) ((t-y)*(t-y))` and `pythagoreanDistance` returns the
  sum of squares with the final `Math.sqrt` dropped.

* `Number.POSITIVE_INFINITY` (used only as the initial running minimum and
  as the fresh accumulator's distance) is the `none` of an `Option ℚ`
  distance, and `ltW d m` is the source's `d < m` against such a possibly
  infinite `m`: every finite distance is below `Infinity`.

* JS `null` / absent values are `Option.none`, and the absent child slots of
  a tree node are the `ONode.nil` constructor (a quadtree variable in the
  source is either `null` or a `Node` object; flattening the option into the
  tree type mirrors that exactly).

* `getMinDistance` mutates the scanned elements (`nodes[i].distance = d`),
  and through it `nearestNeighbor` mutates the tree it searches.  Both are
  embedded by explicit state passing: they return the updated bucket/tree
  next to the value the source returns.  `getMinDistanceVal` and
  `nearestNeighborVal` project out the returned value.

* `addElement` recurses into an ever smaller quadrant and, on exact rational
  arithmetic, need not terminate (a degenerate point-rectangle at a
  non-dyadic coordinate descends forever; JS floats are dyadic, so the source
  terminates there).  The embedding therefore takes explicit fuel and returns
  `Option`, `none` meaning the fuel was exhausted; all build claims are
  stated for runs in which insertion succeeded.
-/

namespace NN

/-- Rectangle(top, left, bottom, right), as in the source constructor. -/
structure Rectangle where
  top : ℚ
  left : ℚ
  bottom : ℚ
  right : ℚ
deriving DecidableEq, Repr

/-- Element object: an opaque payload (a jQuery object in the source, an id
here) together with its bounding rectangle, plus the transient `distance`
property that `getMinDistance` writes onto it (absent until first written). -/
structure Element where
  element : ℕ
  rectangle : Rectangle
  distance : Option ℚ := Option.none
deriving DecidableEq, Repr

/-- The four quadrant names of `nn.Quadrant`. -/
inductive Quadrant : Type where
  | NW
  | NE
  | SW
  | SE
deriving DecidableEq, Repr

/-- A quadtree variable of the source: either `null` (`nil`) or a `Node`
object with its rectangle, its `elements` bucket and four child slots.
The `Node.distance` field of the source is `Infinity` at construction and is
never written on tree nodes; it is only ever read on the fresh accumulator
`new Node()` of `nearestNeighbor`, which is modelled by `Best` below. -/
inductive ONode : Type where
  | nil : ONode
  | node (rectangle : Rectangle) (elements : List Element)
      (nw ne sw se : ONode) : ONode
deriving DecidableEq, Repr

/-- pythagoreanDistance, in squared representation:
`Math.sqrt (a*a + b*b)` is represented by `a*a + b*b`. -/
def pythagoreanDistance (x0 y0 x1 y1 : ℚ) : ℚ :=
  (y1 - y0) * (y1 - y0) + (x1 - x0) * (x1 - x0)

/-- distanceToRectangle, literally following the six-branch `if`/`else if`
chain of the source (lines 174-191), in squared representation: the branch
values `Math.min (Math.abs a) (Math.abs b)` become `min (a*a) (b*b)`.
`none` is the `var d = null` default that survives when no branch fires. -/
def distanceToRectangle (rect : Rectangle) (x y : ℚ) : Option ℚ :=
  if rect.left ≤ x ∧ x ≤ rect.right then
    some (min ((y - rect.bottom) * (y - rect.bottom))
              ((rect.top - y) * (rect.top - y)))
  else if rect.top ≤ y ∧ y ≤ rect.bottom then
    some (min ((x - rect.right) * (x - rect.right))
              ((rect.left - x) * (rect.left - x)))
  else if rect.bottom ≤ y ∧ rect.right ≤ x then
    some (pythagoreanDistance x y rect.right rect.bottom)
  else if rect.bottom ≤ y ∧ x ≤ rect.left then
    some (pythagoreanDistance x y rect.left rect.bottom)
  else if y ≤ rect.top ∧ rect.right ≤ x then
    some (pythagoreanDistance x y rect.right rect.top)
  else if y ≤ rect.top ∧ x ≤ rect.left then
    some (pythagoreanDistance x y rect.left rect.top)
  else
    Option.none

/-- Total reading of `distanceToRectangle`; the totality theorem for claim C4
shows the default is never taken, so this is the value the source computes. -/
def distQ (rect : Rectangle) (x y : ℚ) : ℚ :=
  (distanceToRectangle rect x y).getD 0

/-- getQuadrant: the four midpoint sub-rectangles, following the source
switch (fields in source order: left, right, top, bottom per case). -/
def getQuadrant (rectangle : Rectangle) (q : Quadrant) : Rectangle :=
  match q with
  | Quadrant.NW =>
      { left := rectangle.left
        right := rectangle.left + (rectangle.right - rectangle.left) / 2
        top := rectangle.top
        bottom := rectangle.top + (rectangle.bottom - rectangle.top) / 2 }
  | Quadrant.NE =>
      { left := rectangle.left + (rectangle.right - rectangle.left) / 2
        right := rectangle.right
        top := rectangle.top
        bottom := rectangle.top + (rectangle.bottom - rectangle.top) / 2 }
  | Quadrant.SW =>
      { left := rectangle.left
        right := rectangle.left + (rectangle.right - rectangle.left) / 2
        top := rectangle.top + (rectangle.bottom - rectangle.top) / 2
        bottom := rectangle.bottom }
  | Quadrant.SE =>
      { left := rectangle.left + (rectangle.right - rectangle.left) / 2
        right := rectangle.right
        top := rectangle.top + (rectangle.bottom - rectangle.top) / 2
        bottom := rectangle.bottom }

/-- quadWithPoint: classify a point against the NW quadrant's right/bottom
edges, with the source's `<=` tie rule; the trailing `none` is the
`var quad = null` default (the four guards are in fact exhaustive). -/
def quadWithPoint (rectangle : Rectangle) (x y : ℚ) : Option Quadrant :=
  let nw := getQuadrant rectangle Quadrant.NW
  if x ≤ nw.right ∧ y ≤ nw.bottom then some Quadrant.NW
  else if nw.right < x ∧ y ≤ nw.bottom then some Quadrant.NE
  else if x ≤ nw.right ∧ nw.bottom < y then some Quadrant.SW
  else if nw.right < x ∧ nw.bottom < y then some Quadrant.SE
  else Option.none

/-- `new Node(rectangle)`: empty bucket, four null children. -/
def newNode (rectangle : Rectangle) : ONode :=
  ONode.node rectangle [] ONode.nil ONode.nil ONode.nil ONode.nil

/-- `if (!node.q) node.q = new Node(getQuadrant(boundry, q))`: reuse an
existing child, create it on first use. -/
def orNew (child : ONode) (r : Rectangle) : ONode :=
  match child with
  | ONode.nil => newNode r
  | ONode.node a b c d e f => ONode.node a b c d e f

/-- addElement (source lines 199-224), fueled.  The source computes the
midpoints `xDiv`/`yDiv` of the node's `boundry` and routes the element into
the (lazily created) child whose two inner edges it strictly clears,
otherwise pushes it onto the node's bucket.  `none` = out of fuel (the
source's unbounded recursion); a call on a null node is also `none`, since
the source would crash there (it never happens: roots and created children
are always `Node`s). -/
def addElement : ℕ → ONode → Element → Option ONode
  | _, ONode.nil, _ => Option.none
  | 0, ONode.node _ _ _ _ _ _, _ => Option.none
  | Nat.succ fuel, ONode.node boundry elems nw ne sw se, element =>
      let xDiv := boundry.left + (boundry.right - boundry.left) / 2
      let yDiv := boundry.top + (boundry.bottom - boundry.top) / 2
      let rect := element.rectangle
      if rect.bottom < yDiv ∧ rect.right < xDiv then
        (addElement fuel (orNew nw (getQuadrant boundry Quadrant.NW)) element).map
          (fun nw2 => ONode.node boundry elems nw2 ne sw se)
      else if rect.bottom < yDiv ∧ xDiv < rect.left then
        (addElement fuel (orNew ne (getQuadrant boundry Quadrant.NE)) element).map
          (fun ne2 => ONode.node boundry elems nw ne2 sw se)
      else if yDiv < rect.top ∧ rect.right < xDiv then
        (addElement fuel (orNew sw (getQuadrant boundry Quadrant.SW)) element).map
          (fun sw2 => ONode.node boundry elems nw ne sw2 se)
      else if yDiv < rect.top ∧ xDiv < rect.left then
        (addElement fuel (orNew se (getQuadrant boundry Quadrant.SE)) element).map
          (fun se2 => ONode.node boundry elems nw ne sw se2)
      else
        some (ONode.node boundry (elems ++ [element]) nw ne sw se)

/-- The `for` loop of quadtree: insert the elements left to right,
propagating insertion failure (fuel exhaustion). -/
def insertAll (fuel : ℕ) (n : ONode) : List Element → Option ONode
  | [] => some n
  | e :: rest =>
      match addElement fuel n e with
      | some n2 => insertAll fuel n2 rest
      | Option.none => Option.none

/-- quadtree (source lines 106-117): `null` for an empty element list,
otherwise a root node over the bounding rectangle with every element
inserted in input order. -/
def quadtree (fuel : ℕ) (elements : List Element) (rectangle : Rectangle) :
    Option ONode :=
  if elements.length = 0 then some ONode.nil
  else insertAll fuel (newNode rectangle) elements

/-- `d < m` for a finite distance `d` against a running minimum or best
distance `m` that may be `Number.POSITIVE_INFINITY` (`none`). -/
def ltW (d : ℚ) : Option ℚ → Prop
  | Option.none => True
  | some q => d < q

instance (d : ℚ) : (m : Option ℚ) → Decidable (ltW d m)
  | Option.none => Decidable.isTrue trivial
  | some q => inferInstanceAs (Decidable (d < q))

/-- `a ≤ b` on possibly infinite (`none`) distances; used to state the
monotonicity of the search accumulator. -/
def leW : Option ℚ → Option ℚ → Prop
  | _, Option.none => True
  | Option.none, some _ => False
  | some p, some q => p ≤ q

instance : (a b : Option ℚ) → Decidable (leW a b)
  | Option.none, Option.none => Decidable.isTrue trivial
  | some _, Option.none => Decidable.isTrue trivial
  | Option.none, some _ => Decidable.isFalse id
  | some p, some q => inferInstanceAs (Decidable (p ≤ q))

/-- The running best of `nearestNeighbor`: in the source it is either the
fresh `new Node()` accumulator (no element, `distance = Infinity`) or an
element returned by `getMinDistance` carrying its written distance
(`distance = none` is `Infinity`). -/
structure Best where
  element : Option Element
  distance : Option ℚ
deriving DecidableEq, Repr

/-- The fresh `new Node()` accumulator. -/
def freshBest : Best := { element := Option.none, distance := Option.none }

/-- Loop of getMinDistance (source lines 302-315): walks the bucket with the
running minimum, writes `nodes[i].distance = d` onto every scanned element
(the returned list is the updated bucket - explicit-state form of the
source's mutation), and keeps the strictly closest element. -/
def getMinDistanceGo (x y : ℚ) :
    List Element → Option ℚ → Option (Element × ℚ) →
    List Element × Option (Element × ℚ)
  | [], _, best => ([], best)
  | e :: rest, mn, best =>
      let d := distQ e.rectangle x y
      let e2 : Element := { e with distance := some d }
      if ltW d mn then
        let r := getMinDistanceGo x y rest (some d) (some (e2, d))
        (e2 :: r.1, r.2)
      else
        let r := getMinDistanceGo x y rest mn best
        (e2 :: r.1, r.2)

/-- getMinDistance: `min = Infinity`, `best = null` before the loop. -/
def getMinDistance (nodes : List Element) (x y : ℚ) :
    List Element × Option (Element × ℚ) :=
  getMinDistanceGo x y nodes Option.none Option.none

/-- The value getMinDistance returns (its state effect projected away). -/
def getMinDistanceVal (nodes : List Element) (x y : ℚ) :
    Option (Element × ℚ) :=
  (getMinDistance nodes x y).2

/-- Loop of fullScan (source lines 45-60): same strict-minimum loop, but over
the caller's element list, with no write-back (`dist` is a local there). -/
def fullScanGo (x y : ℚ) :
    List Element → Option ℚ → Option Element → Option Element
  | [], _, closest => closest
  | e :: rest, mn, closest =>
      let d := distQ e.rectangle x y
      if ltW d mn then fullScanGo x y rest (some d) (some e)
      else fullScanGo x y rest mn closest

/-- fullScan: `min_dist = Infinity`, `$closestElem = null` before the loop. -/
def fullScan (elements : List Element) (x y : ℚ) : Option Element :=
  fullScanGo x y elements Option.none Option.none

/-- One `if (quadtree.q) { quadDistance = ...; if (pointQuad == q ||
quadDistance < best.distance) best = nearestNeighbor(quadtree.q, x, y, best) }`
block of the source.  `res` is the recursive call's result, passed in
pre-computed so that the recursion stays structural; it is only used in the
branch where the source actually performs the call, so the value and the
updated child are exactly the source's.  Returns (updated child, new best). -/
def visitChild (res : ONode × Option Best) (child : ONode) (q : Quadrant)
    (pq : Option Quadrant) (x y : ℚ) (b : Best) : ONode × Best :=
  match child with
  | ONode.nil => (ONode.nil, b)
  | ONode.node rc ec ac bc cc dc =>
      if pq = some q ∨ ltW (distQ rc x y) b.distance then
        (res.1, res.2.getD b)
      else
        (ONode.node rc ec ac bc cc dc, b)

/-- Steps 1-2 of nearestNeighbor on a node: `if (quadtree.elements.length >
0) { var bestInQuad = nn.getMinDistance(quadtree.elements, x, y); if
(bestInQuad.distance < best.distance) best = bestInQuad; }`.  Returns the
updated bucket (with the written distance fields) and the new best. -/
def bucketStep (elems : List Element) (x y : ℚ) (b : Best) :
    List Element × Best :=
  let scanned :=
    if 0 < elems.length then getMinDistance elems x y else (elems, Option.none)
  (scanned.1,
    match scanned.2 with
    | some (e, d) =>
        if ltW d b.distance then { element := some e, distance := some d }
        else b
    | Option.none => b)

/-- nearestNeighbor (source lines 234-269), in explicit-state form: the first
component is the searched tree after the query (carrying the distance fields
`getMinDistance` wrote into the visited buckets), the second the returned
best (`none` exactly when the source returns `null`, i.e. on a null tree).
The recursive results handed to `visitChild` are used only when the source
performs the call, and a call on an existing child starts from a `node`, so
`Option.getD` there returns precisely the call's result. -/
def nearestNeighbor : ONode → ℚ → ℚ → Option Best → ONode × Option Best
  | ONode.nil, _, _, _ => (ONode.nil, Option.none)
  | ONode.node rect elems nw ne sw se, x, y, best0 =>
      let b0 := best0.getD freshBest
      let s0 := bucketStep elems x y b0
      let pq := quadWithPoint rect x y
      let s1 := visitChild (nearestNeighbor nw x y (some s0.2)) nw
        Quadrant.NW pq x y s0.2
      let s2 := visitChild (nearestNeighbor ne x y (some s1.2)) ne
        Quadrant.NE pq x y s1.2
      let s3 := visitChild (nearestNeighbor sw x y (some s2.2)) sw
        Quadrant.SW pq x y s2.2
      let s4 := visitChild (nearestNeighbor se x y (some s3.2)) se
        Quadrant.SE pq x y s3.2
      (ONode.node rect s0.1 s1.1 s2.1 s3.1 s4.1, some s4.2)

/-- The value nearestNeighbor returns (its state effect projected away). -/
def nearestNeighborVal (t : ONode) (x y : ℚ) (best : Option Best) :
    Option Best :=
  (nearestNeighbor t x y best).2

/-- All elements stored in the buckets of a (sub)tree, root bucket first. -/
def treeElems : ONode → List Element
  | ONode.nil => []
  | ONode.node _ elems nw ne sw se =>
      elems ++ treeElems nw ++ treeElems ne ++ treeElems sw ++ treeElems se

/-- Erase the transient distance scratch field of an element. -/
def stripE (e : Element) : Element := { e with distance := Option.none }

/-- Erase every transient distance scratch field in a tree. -/
def stripT : ONode → ONode
  | ONode.nil => ONode.nil
  | ONode.node r elems nw ne sw se =>
      ONode.node r (elems.map stripE)
        (stripT nw) (stripT ne) (stripT sw) (stripT se)

/-- Justification of the squared representation, 1: comparing squares with
`<` is comparing the distances themselves. -/
theorem sqRepr_lt_iff (p q : ℚ) (hp : 0 ≤ p) :
    Real.sqrt (p : ℝ) < Real.sqrt (q : ℝ) ↔ p < q := by
  rw [Real.sqrt_lt_sqrt_iff (by exact_mod_cast hp)]
  norm_cast

/-- Justification of the squared representation, 2: equality of squares is
equality of the distances themselves. -/
theorem sqRepr_eq_iff (p q : ℚ) (hp : 0 ≤ p) (hq : 0 ≤ q) :
    Real.sqrt (p : ℝ) = Real.sqrt (q : ℝ) ↔ p = q := by
  rw [Real.sqrt_inj (by exact_mod_cast hp) (by exact_mod_cast hq)]
  norm_cast

/-- Justification of the squared representation, 3: `Math.min` commutes with
the representation. -/
theorem sqRepr_min (p q : ℚ) :
    Real.sqrt ((min p q : ℚ) : ℝ) = min (Real.sqrt (p : ℝ)) (Real.sqrt (q : ℝ)) := by
  rcases le_total p q with h | h
  · rw [min_eq_left h, min_eq_left (Real.sqrt_le_sqrt (by exact_mod_cast h))]
  · rw [min_eq_right h, min_eq_right (Real.sqrt_le_sqrt (by exact_mod_cast h))]

/-- The six-branch chain of distanceToRectangle is exhaustive: the `null`
default is dead and the function always computes `distQ`. -/
theorem distanceToRectangle_eq_distQ (rect : Rectangle) (x y : ℚ) :
    distanceToRectangle rect x y = some (distQ rect x y) := by
  unfold distQ
  unfold distanceToRectangle
  split_ifs with h1 h2 h3 h4 h5 h6
  · rfl
  · rfl
  · rfl
  · rfl
  · rfl
  · rfl
  · exfalso
    rcases le_or_lt y rect.top with hyt | hyt
    · rcases le_or_lt x rect.left with hxl | hxl
      · exact h6 ⟨hyt, hxl⟩
      · rcases le_or_lt rect.right x with hxr | hxr
        · exact h5 ⟨hyt, hxr⟩
        · exact h1 ⟨le_of_lt hxl, le_of_lt hxr⟩
    · rcases le_or_lt rect.bottom y with hyb | hyb
      · rcases le_or_lt x rect.left with hxl | hxl
        · exact h4 ⟨hyb, hxl⟩
        · rcases le_or_lt rect.right x with hxr | hxr
          · exact h3 ⟨hyb, hxr⟩
          · exact h1 ⟨le_of_lt hxl, le_of_lt hxr⟩
      · exact h2 ⟨le_of_lt hyt, le_of_lt hyb⟩

/-- Every value distanceToRectangle produces is nonnegative (it is a square
or a minimum of squares), as required for the squared representation. -/
theorem distQ_nonneg (rect : Rectangle) (x y : ℚ) : 0 ≤ distQ rect x y := by
  unfold distQ distanceToRectangle pythagoreanDistance
  split_ifs <;>
    simp only [Option.getD_some, Option.getD_none, le_min_iff] <;>
    first
      | exact le_refl 0
      | exact ⟨mul_self_nonneg _, mul_self_nonneg _⟩
      | exact add_nonneg (mul_self_nonneg _) (mul_self_nonneg _)

/-- C4: distanceToRectangle is total.  For every well-formed rectangle
(`top ≤ bottom`, `left ≤ right`) and every point of the plane the `if`/
`else if` chain fires exactly one branch (so the function never returns the
`null` default), and a point whose x-coordinate ties with or lies between
the vertical edges takes the first, inclusive horizontal-band branch. -/
theorem distanceToRectangle_total (rect : Rectangle) (x y : ℚ)
    (htb : rect.top ≤ rect.bottom) (hlr : rect.left ≤ rect.right) :
    (distanceToRectangle rect x y).isSome = true ∧
    (rect.left ≤ x ∧ x ≤ rect.right →
      distanceToRectangle rect x y =
        some (min ((y - rect.bottom) * (y - rect.bottom))
                  ((rect.top - y) * (rect.top - y)))) := by
  constructor
  · rw [distanceToRectangle_eq_distQ]
    rfl
  · intro h
    unfold distanceToRectangle
    rw [if_pos h]

/-- Witness for C4 at rectangle (top 0, left 0, bottom 10, right 10) and
point (3, 4). -/
theorem distanceToRectangle_total_witness :
    (distanceToRectangle { top := 0, left := 0, bottom := 10, right := 10 }
        3 4).isSome = true ∧
    (({ top := 0, left := 0, bottom := 10, right := 10 } : Rectangle).left ≤ 3 ∧
        (3 : ℚ) ≤ ({ top := 0, left := 0, bottom := 10, right := 10 } : Rectangle).right →
      distanceToRectangle { top := 0, left := 0, bottom := 10, right := 10 } 3 4 =
        some (min ((4 - ({ top := 0, left := 0, bottom := 10, right := 10 } : Rectangle).bottom) *
                    (4 - ({ top := 0, left := 0, bottom := 10, right := 10 } : Rectangle).bottom))
                  ((({ top := 0, left := 0, bottom := 10, right := 10 } : Rectangle).top - 4) *
                    (({ top := 0, left := 0, bottom := 10, right := 10 } : Rectangle).top - 4)))) :=
  distanceToRectangle_total { top := 0, left := 0, bottom := 10, right := 10 } 3 4
    (by norm_num) (by norm_num)

/-- C1 is refuted by the code: at the well-formed rectangle
(top 0, left 0, bottom 10, right 10) and the point (5, 5), which is strictly
inside the rectangle, distanceToRectangle does not return 0: the first
branch returns the distance to the nearer horizontal edge, squared value 25,
i.e. an actual distance of √25 = 5 ≠ 0. -/
theorem distanceToRectangle_inside_counterexample :
    ({ top := 0, left := 0, bottom := 10, right := 10 } : Rectangle).top < 5 ∧
    (5 : ℚ) < ({ top := 0, left := 0, bottom := 10, right := 10 } : Rectangle).bottom ∧
    ({ top := 0, left := 0, bottom := 10, right := 10 } : Rectangle).left < 5 ∧
    (5 : ℚ) < ({ top := 0, left := 0, bottom := 10, right := 10 } : Rectangle).right ∧
    distanceToRectangle { top := 0, left := 0, bottom := 10, right := 10 } 5 5 = some 25 ∧
    Real.sqrt (25 : ℝ) = 5 ∧ (5 : ℝ) ≠ 0 := by
  refine ⟨by norm_num, by norm_num, by norm_num, by norm_num, ?q1, ?q2, by norm_num⟩
  · norm_num [distanceToRectangle, pythagoreanDistance]
  · rw [show (25 : ℝ) = 5 ^ 2 by norm_num, Real.sqrt_sq (by norm_num)]

/-- C6 is refuted as stated: called on an absent node with a caller-supplied
current best, nearestNeighbor returns `null`, not the supplied best. -/
theorem nearestNeighbor_nil_counterexample :
    (nearestNeighbor ONode.nil 0 0
        (some { element := Option.none, distance := some 25 })).2 ≠
      some { element := Option.none, distance := some 25 } := by
  simp [nearestNeighbor]

/-- C6, amended: called on an absent node, nearestNeighbor returns `null`
regardless of the query point and of any caller-supplied current best (the
recursive calls guard every child with `if (quadtree.q)`, so during a search
this base case is never reached with a meaningful best; only a top-level
call on an empty tree sees it). -/
theorem nearestNeighbor_nil (x y : ℚ) (best : Option Best) :
    (nearestNeighbor ONode.nil x y best).2 = Option.none := rfl

/-- Concrete element A of the refutation runs: rectangle [30,40]x[20,30],
payload id 0. -/
def exElemA : Element :=
  { element := 0, rectangle := { top := 20, left := 30, bottom := 30, right := 40 } }

/-- Concrete element B of the refutation runs: rectangle [55,60]x[20,30],
payload id 1. -/
def exElemB : Element :=
  { element := 1, rectangle := { top := 20, left := 55, bottom := 30, right := 60 } }

/-- Concrete bounding rectangle [0,100]x[0,100]. -/
def exBounds : Rectangle := { top := 0, left := 0, bottom := 100, right := 100 }

/-- The tree quadtree builds from [exElemA, exElemB] over exBounds: A lands
in the NW child's bucket, B in the NE child's bucket. -/
def exTree : ONode :=
  ONode.node exBounds []
    (ONode.node { top := 0, left := 0, bottom := 50, right := 50 } [exElemA]
      ONode.nil ONode.nil ONode.nil ONode.nil)
    (ONode.node { top := 0, left := 50, bottom := 50, right := 100 } [exElemB]
      ONode.nil ONode.nil ONode.nil ONode.nil)
    ONode.nil ONode.nil

/-- Rectangle of a non-null node. -/
def rectOf : ONode → Option Rectangle
  | ONode.nil => Option.none
  | ONode.node r _ _ _ _ _ => some r

/-- Weak containment of `inner` in `outer` (shared edges allowed). -/
def containsR (outer inner : Rectangle) : Prop :=
  outer.left ≤ inner.left ∧ inner.right ≤ outer.right ∧
  outer.top ≤ inner.top ∧ inner.bottom ≤ outer.bottom

/-- Strict containment of a rectangle in quadrant `q` of `node`, in the
sense of spec section 4.2 ("lies strictly within one quadrant: its right
edge is left of the vertical midpoint and bottom edge is above the
horizontal midpoint for NW, and symmetric conditions for the other three"):
the rectangle lies inside the quadrant rectangle, and its two edges facing
the dividing lines clear them strictly. -/
def strictlyInQuad (node : Rectangle) (q : Quadrant) (r : Rectangle) : Prop :=
  containsR (getQuadrant node q) r ∧
  (match q with
   | Quadrant.NW => r.right < (getQuadrant node Quadrant.NW).right ∧
       r.bottom < (getQuadrant node Quadrant.NW).bottom
   | Quadrant.NE => (getQuadrant node Quadrant.NE).left < r.left ∧
       r.bottom < (getQuadrant node Quadrant.NE).bottom
   | Quadrant.SW => r.right < (getQuadrant node Quadrant.SW).right ∧
       (getQuadrant node Quadrant.SW).top < r.top
   | Quadrant.SE => (getQuadrant node Quadrant.SE).left < r.left ∧
       (getQuadrant node Quadrant.SE).top < r.top)

/-- The containment invariant of claim C5, per node: every bucket element is
not strictly contained in any of the node's four quadrant rectangles, and
every element stored anywhere under a child is strictly contained in that
child's quadrant (by `childRectsOK`, the child's own rectangle). -/
def containmentProp : ONode → Prop
  | ONode.nil => True
  | ONode.node rect elems nw ne sw se =>
      (∀ e ∈ elems, ∀ q, ¬ strictlyInQuad rect q e.rectangle) ∧
      (∀ e ∈ treeElems nw, strictlyInQuad rect Quadrant.NW e.rectangle) ∧
      (∀ e ∈ treeElems ne, strictlyInQuad rect Quadrant.NE e.rectangle) ∧
      (∀ e ∈ treeElems sw, strictlyInQuad rect Quadrant.SW e.rectangle) ∧
      (∀ e ∈ treeElems se, strictlyInQuad rect Quadrant.SE e.rectangle) ∧
      containmentProp nw ∧ containmentProp ne ∧
      containmentProp sw ∧ containmentProp se

/-- Bookkeeping invariant: every existing child node's rectangle is the
corresponding quadrant of its parent's rectangle (this is how addElement
creates children). -/
def childRectsOK : ONode → Prop
  | ONode.nil => True
  | ONode.node rect _ nw ne sw se =>
      (nw = ONode.nil ∨ rectOf nw = some (getQuadrant rect Quadrant.NW)) ∧
      (ne = ONode.nil ∨ rectOf ne = some (getQuadrant rect Quadrant.NE)) ∧
      (sw = ONode.nil ∨ rectOf sw = some (getQuadrant rect Quadrant.SW)) ∧
      (se = ONode.nil ∨ rectOf se = some (getQuadrant rect Quadrant.SE)) ∧
      childRectsOK nw ∧ childRectsOK ne ∧ childRectsOK sw ∧ childRectsOK se

theorem treeElems_orNew (c : ONode) (r : Rectangle) :
    treeElems (orNew c r) = treeElems c := by
  cases c <;> rfl

theorem containmentProp_newNode (r : Rectangle) :
    containmentProp (newNode r) := by
  simp [containmentProp, newNode, treeElems]

theorem childRectsOK_newNode (r : Rectangle) : childRectsOK (newNode r) := by
  simp [childRectsOK, newNode]

theorem rectOf_orNew_of_ok (c : ONode) (r : Rectangle)
    (h : c = ONode.nil ∨ rectOf c = some r) :
    rectOf (orNew c r) = some r := by
  cases c with
  | nil => rfl
  | node a b cc d e f =>
      rcases h with h | h
      · exact absurd h (by simp)
      · exact h

theorem containmentProp_orNew (c : ONode) (r : Rectangle)
    (h : containmentProp c) : containmentProp (orNew c r) := by
  cases c with
  | nil => exact containmentProp_newNode r
  | node a b cc d e f => exact h

theorem childRectsOK_orNew (c : ONode) (r : Rectangle)
    (h : childRectsOK c) : childRectsOK (orNew c r) := by
  cases c with
  | nil => exact childRectsOK_newNode r
  | node a b cc d e f => exact h

theorem addElement_rectOf (fuel : ℕ) (n : ONode) (e : Element) (n2 : ONode)
    (h : addElement fuel n e = some n2) : rectOf n2 = rectOf n := by
  match fuel, n with
  | fuel, ONode.nil => simp [addElement] at h
  | 0, ONode.node boundry elems nw ne sw se => simp [addElement] at h
  | Nat.succ fuel, ONode.node boundry elems nw ne sw se =>
      simp only [addElement] at h
      split_ifs at h
      all_goals
        first
          | (obtain ⟨a, ha, rfl⟩ := Option.map_eq_some'.mp h; rfl)
          | (obtain rfl := Option.some.inj h; rfl)

set_option maxHeartbeats 1000000 in
/-- Inserting `e` adds exactly `e` to the stored elements of a tree. -/
theorem addElement_mem (fuel : ℕ) :
    ∀ (n : ONode) (e : Element) (n2 : ONode),
      addElement fuel n e = some n2 →
      ∀ e2, e2 ∈ treeElems n2 ↔ e2 ∈ treeElems n ∨ e2 = e := by
  induction fuel with
  | zero =>
      intro n e n2 h
      cases n <;> simp [addElement] at h
  | succ fuel ih =>
      intro n e n2 h
      cases n with
      | nil => simp [addElement] at h
      | node boundry elems nw ne sw se =>
          simp only [addElement] at h
          split_ifs at h
          case pos =>
            obtain ⟨a, ha, rfl⟩ := Option.map_eq_some'.mp h
            intro e2
            have hmem := ih _ e a ha e2
            rw [treeElems_orNew] at hmem
            simp only [treeElems, List.mem_append, hmem]
            tauto
          case pos =>
            obtain ⟨a, ha, rfl⟩ := Option.map_eq_some'.mp h
            intro e2
            have hmem := ih _ e a ha e2
            rw [treeElems_orNew] at hmem
            simp only [treeElems, List.mem_append, hmem]
            tauto
          case pos =>
            obtain ⟨a, ha, rfl⟩ := Option.map_eq_some'.mp h
            intro e2
            have hmem := ih _ e a ha e2
            rw [treeElems_orNew] at hmem
            simp only [treeElems, List.mem_append, hmem]
            tauto
          case pos =>
            obtain ⟨a, ha, rfl⟩ := Option.map_eq_some'.mp h
            intro e2
            have hmem := ih _ e a ha e2
            rw [treeElems_orNew] at hmem
            simp only [treeElems, List.mem_append, hmem]
            tauto
          case neg =>
            obtain rfl := Option.some.inj h
            intro e2
            simp only [treeElems, List.mem_append, List.mem_singleton]
            tauto

theorem strict_of_fitsNW (boundry r : Rectangle) (hc : containsR boundry r)
    (hb : r.bottom < boundry.top + (boundry.bottom - boundry.top) / 2)
    (hr : r.right < boundry.left + (boundry.right - boundry.left) / 2) :
    strictlyInQuad boundry Quadrant.NW r := by
  obtain ⟨h1, h2, h3, h4⟩ := hc
  exact ⟨⟨by simpa [getQuadrant] using h1, by simp [getQuadrant]; linarith,
    by simpa [getQuadrant] using h3, by simp [getQuadrant]; linarith⟩,
    by simp [getQuadrant]; linarith, by simp [getQuadrant]; linarith⟩

theorem strict_of_fitsNE (boundry r : Rectangle) (hc : containsR boundry r)
    (hb : r.bottom < boundry.top + (boundry.bottom - boundry.top) / 2)
    (hl : boundry.left + (boundry.right - boundry.left) / 2 < r.left) :
    strictlyInQuad boundry Quadrant.NE r := by
  obtain ⟨h1, h2, h3, h4⟩ := hc
  exact ⟨⟨by simp [getQuadrant]; linarith, by simpa [getQuadrant] using h2,
    by simpa [getQuadrant] using h3, by simp [getQuadrant]; linarith⟩,
    by simp [getQuadrant]; linarith, by simp [getQuadrant]; linarith⟩

theorem strict_of_fitsSW (boundry r : Rectangle) (hc : containsR boundry r)
    (ht : boundry.top + (boundry.bottom - boundry.top) / 2 < r.top)
    (hr : r.right < boundry.left + (boundry.right - boundry.left) / 2) :
    strictlyInQuad boundry Quadrant.SW r := by
  obtain ⟨h1, h2, h3, h4⟩ := hc
  exact ⟨⟨by simpa [getQuadrant] using h1, by simp [getQuadrant]; linarith,
    by simp [getQuadrant]; linarith, by simpa [getQuadrant] using h4⟩,
    by simp [getQuadrant]; linarith, by simp [getQuadrant]; linarith⟩

theorem strict_of_fitsSE (boundry r : Rectangle) (hc : containsR boundry r)
    (ht : boundry.top + (boundry.bottom - boundry.top) / 2 < r.top)
    (hl : boundry.left + (boundry.right - boundry.left) / 2 < r.left) :
    strictlyInQuad boundry Quadrant.SE r := by
  obtain ⟨h1, h2, h3, h4⟩ := hc
  exact ⟨⟨by simp [getQuadrant]; linarith, by simpa [getQuadrant] using h2,
    by simp [getQuadrant]; linarith, by simpa [getQuadrant] using h4⟩,
    by simp [getQuadrant]; linarith, by simp [getQuadrant]; linarith⟩

/-- The bucket (`else`) case of addElement: a rectangle that clears none of
the four routing tests is not strictly contained in any quadrant. -/
theorem not_strict_of_unfit (boundry r : Rectangle)
    (h1 : ¬(r.bottom < boundry.top + (boundry.bottom - boundry.top) / 2 ∧
        r.right < boundry.left + (boundry.right - boundry.left) / 2))
    (h2 : ¬(r.bottom < boundry.top + (boundry.bottom - boundry.top) / 2 ∧
        boundry.left + (boundry.right - boundry.left) / 2 < r.left))
    (h3 : ¬(boundry.top + (boundry.bottom - boundry.top) / 2 < r.top ∧
        r.right < boundry.left + (boundry.right - boundry.left) / 2))
    (h4 : ¬(boundry.top + (boundry.bottom - boundry.top) / 2 < r.top ∧
        boundry.left + (boundry.right - boundry.left) / 2 < r.left)) :
    ∀ q, ¬ strictlyInQuad boundry q r := by
  intro q hq
  cases q with
  | NW =>
      obtain ⟨-, hsr, hsb⟩ := hq
      simp only [getQuadrant] at hsr hsb
      exact h1 ⟨hsb, hsr⟩
  | NE =>
      obtain ⟨-, hsl, hsb⟩ := hq
      simp only [getQuadrant] at hsl hsb
      exact h2 ⟨hsb, hsl⟩
  | SW =>
      obtain ⟨-, hsr, hst⟩ := hq
      simp only [getQuadrant] at hsr hst
      exact h3 ⟨hst, hsr⟩
  | SE =>
      obtain ⟨-, hsl, hst⟩ := hq
      simp only [getQuadrant] at hsl hst
      exact h4 ⟨hst, hsl⟩

set_option maxHeartbeats 2000000 in
/-- addElement preserves both containment invariants: if the inserted
element's rectangle lies inside the node's rectangle, the new tree again
satisfies them. -/
theorem addElement_inv (fuel : ℕ) :
    ∀ (n : ONode) (e : Element) (n2 : ONode) (rect : Rectangle),
      addElement fuel n e = some n2 →
      rectOf n = some rect →
      containsR rect e.rectangle →
      containmentProp n → childRectsOK n →
      containmentProp n2 ∧ childRectsOK n2 := by
  induction fuel with
  | zero =>
      intro n e n2 rect h
      cases n <;> simp [addElement] at h
  | succ fuel ih =>
      intro n e n2 rect h hrect hc hinv hcr
      cases n with
      | nil => simp [addElement] at h
      | node boundry elems nw ne sw se =>
          have hb : boundry = rect := by simpa [rectOf] using hrect
          subst hb
          simp only [containmentProp] at hinv
          obtain ⟨hbuck, hnw, hne, hsw, hse, inw, ine, isw, ise⟩ := hinv
          simp only [childRectsOK] at hcr
          obtain ⟨cnw, cne, csw, cse, jnw, jne, jsw, jse⟩ := hcr
          simp only [addElement] at h
          split_ifs at h with hf1 hf2 hf3 hf4
          · -- routed into NW
            obtain ⟨nw2, hnw2, rfl⟩ := Option.map_eq_some'.mp h
            have hstrict := strict_of_fitsNW boundry e.rectangle hc hf1.1 hf1.2
            have hro : rectOf (orNew nw (getQuadrant boundry Quadrant.NW)) =
                some (getQuadrant boundry Quadrant.NW) := rectOf_orNew_of_ok nw _ cnw
            have hsub := ih (orNew nw (getQuadrant boundry Quadrant.NW)) e nw2
              (getQuadrant boundry Quadrant.NW) hnw2 hro hstrict.1
              (containmentProp_orNew nw _ inw) (childRectsOK_orNew nw _ jnw)
            have hmem := addElement_mem fuel _ e nw2 hnw2
            refine ⟨?nwa, ?nwb⟩
            · simp only [containmentProp]
              refine ⟨hbuck, ?nwm, hne, hsw, hse, hsub.1, ine, isw, ise⟩
              intro e2 he2
              have := (hmem e2).mp he2
              rw [treeElems_orNew] at this
              rcases this with h2 | rfl
              · exact hnw e2 h2
              · exact hstrict
            · simp only [childRectsOK]
              refine ⟨Or.inr ?nwr, cne, csw, cse, hsub.2, jne, jsw, jse⟩
              rw [addElement_rectOf fuel _ e nw2 hnw2]
              exact hro
          · -- routed into NE
            obtain ⟨ne2, hne2, rfl⟩ := Option.map_eq_some'.mp h
            have hstrict := strict_of_fitsNE boundry e.rectangle hc hf2.1 hf2.2
            have hro : rectOf (orNew ne (getQuadrant boundry Quadrant.NE)) =
                some (getQuadrant boundry Quadrant.NE) := rectOf_orNew_of_ok ne _ cne
            have hsub := ih (orNew ne (getQuadrant boundry Quadrant.NE)) e ne2
              (getQuadrant boundry Quadrant.NE) hne2 hro hstrict.1
              (containmentProp_orNew ne _ ine) (childRectsOK_orNew ne _ jne)
            have hmem := addElement_mem fuel _ e ne2 hne2
            refine ⟨?nea, ?neb⟩
            · simp only [containmentProp]
              refine ⟨hbuck, hnw, ?nem, hsw, hse, inw, hsub.1, isw, ise⟩
              intro e2 he2
              have := (hmem e2).mp he2
              rw [treeElems_orNew] at this
              rcases this with h2 | rfl
              · exact hne e2 h2
              · exact hstrict
            · simp only [childRectsOK]
              refine ⟨cnw, Or.inr ?ner, csw, cse, jnw, hsub.2, jsw, jse⟩
              rw [addElement_rectOf fuel _ e ne2 hne2]
              exact hro
          · -- routed into SW
            obtain ⟨sw2, hsw2, rfl⟩ := Option.map_eq_some'.mp h
            have hstrict := strict_of_fitsSW boundry e.rectangle hc hf3.1 hf3.2
            have hro : rectOf (orNew sw (getQuadrant boundry Quadrant.SW)) =
                some (getQuadrant boundry Quadrant.SW) := rectOf_orNew_of_ok sw _ csw
            have hsub := ih (orNew sw (getQuadrant boundry Quadrant.SW)) e sw2
              (getQuadrant boundry Quadrant.SW) hsw2 hro hstrict.1
              (containmentProp_orNew sw _ isw) (childRectsOK_orNew sw _ jsw)
            have hmem := addElement_mem fuel _ e sw2 hsw2
            refine ⟨?swa, ?swb⟩
            · simp only [containmentProp]
              refine ⟨hbuck, hnw, hne, ?swm, hse, inw, ine, hsub.1, ise⟩
              intro e2 he2
              have := (hmem e2).mp he2
              rw [treeElems_orNew] at this
              rcases this with h2 | rfl
              · exact hsw e2 h2
              · exact hstrict
            · simp only [childRectsOK]
              refine ⟨cnw, cne, Or.inr ?swr, cse, jnw, jne, hsub.2, jse⟩
              rw [addElement_rectOf fuel _ e sw2 hsw2]
              exact hro
          · -- routed into SE
            obtain ⟨se2, hse2, rfl⟩ := Option.map_eq_some'.mp h
            have hstrict := strict_of_fitsSE boundry e.rectangle hc hf4.1 hf4.2
            have hro : rectOf (orNew se (getQuadrant boundry Quadrant.SE)) =
                some (getQuadrant boundry Quadrant.SE) := rectOf_orNew_of_ok se _ cse
            have hsub := ih (orNew se (getQuadrant boundry Quadrant.SE)) e se2
              (getQuadrant boundry Quadrant.SE) hse2 hro hstrict.1
              (containmentProp_orNew se _ ise) (childRectsOK_orNew se _ jse)
            have hmem := addElement_mem fuel _ e se2 hse2
            refine ⟨?sea, ?seb⟩
            · simp only [containmentProp]
              refine ⟨hbuck, hnw, hne, hsw, ?sem, inw, ine, isw, hsub.1⟩
              intro e2 he2
              have := (hmem e2).mp he2
              rw [treeElems_orNew] at this
              rcases this with h2 | rfl
              · exact hse e2 h2
              · exact hstrict
            · simp only [childRectsOK]
              refine ⟨cnw, cne, csw, Or.inr ?ser, jnw, jne, jsw, hsub.2⟩
              rw [addElement_rectOf fuel _ e se2 hse2]
              exact hro
          · -- straddles a dividing line: appended to this bucket
            obtain rfl := Option.some.inj h
            refine ⟨?ba, ?bb⟩
            · simp only [containmentProp]
              refine ⟨?bm, hnw, hne, hsw, hse, inw, ine, isw, ise⟩
              intro e2 he2
              rcases List.mem_append.mp he2 with h2 | h2
              · exact hbuck e2 h2
              · obtain rfl := List.mem_singleton.mp h2
                exact not_strict_of_unfit boundry e2.rectangle hf1 hf2 hf3 hf4
            · simp only [childRectsOK]
              exact ⟨cnw, cne, csw, cse, jnw, jne, jsw, jse⟩

/-- insertAll (the quadtree build loop) preserves the containment
invariants and the root rectangle. -/
theorem insertAll_inv :
    ∀ (es : List Element) (fuel : ℕ) (n t : ONode) (rect : Rectangle),
      insertAll fuel n es = some t →
      rectOf n = some rect →
      (∀ e ∈ es, containsR rect e.rectangle) →
      containmentProp n → childRectsOK n →
      containmentProp t ∧ childRectsOK t ∧ rectOf t = some rect := by
  intro es
  induction es with
  | nil =>
      intro fuel n t rect h hr hc hi hcr
      obtain rfl : n = t := by simpa [insertAll] using h
      exact ⟨hi, hcr, hr⟩
  | cons e rest ih =>
      intro fuel n t rect h hr hc hi hcr
      simp only [insertAll] at h
      cases haddE : addElement fuel n e with
      | none => rw [haddE] at h; simp at h
      | some n2 =>
          rw [haddE] at h
          have h2 := addElement_inv fuel n e n2 rect haddE hr
            (hc e (by simp)) hi hcr
          have hr2 : rectOf n2 = some rect :=
            (addElement_rectOf fuel n e n2 haddE).trans hr
          exact ih fuel n2 t rect h hr2
            (fun e2 he2 => hc e2 (by simp [he2])) h2.1 h2.2

/-- C5: containment invariant of build.  In every tree quadtree produces
from elements whose rectangles lie inside the bounding rectangle, every
element in a node's bucket is not strictly contained in any of that node's
four quadrant rectangles (it straddles a dividing line), and every element
stored under a child node is strictly contained in that child's rectangle
(childRectsOK identifies each child's rectangle with the parent's
corresponding quadrant, and containmentProp puts every element under the
child strictly inside that quadrant). -/
theorem quadtree_containment (fuel : ℕ) (es : List Element) (B : Rectangle)
    (t : ONode) (hbuild : quadtree fuel es B = some t)
    (hinB : ∀ e ∈ es, containsR B e.rectangle) :
    containmentProp t ∧ childRectsOK t := by
  unfold quadtree at hbuild
  split_ifs at hbuild with hlen
  · obtain rfl := Option.some.inj hbuild
    exact ⟨trivial, trivial⟩
  · obtain ⟨h1, h2, h3⟩ := insertAll_inv es fuel (newNode B) t B hbuild rfl
      hinB (containmentProp_newNode B) (childRectsOK_newNode B)
    exact ⟨h1, h2⟩

/-- Witness for C5 on the concrete build of [exElemA, exElemB] over
exBounds. -/
theorem quadtree_containment_witness :
    containmentProp exTree ∧ childRectsOK exTree :=
  quadtree_containment 3 [exElemA, exElemB] exBounds exTree
    (by norm_num [quadtree, insertAll, addElement, orNew, newNode,
      getQuadrant, exTree, exElemA, exElemB, exBounds])
    (by norm_num [List.forall_mem_cons, containsR, exElemA, exElemB, exBounds])

/-- C2 is refuted by the code: on the elements [exElemA, exElemB] with
bounding rectangle exBounds and query point (50, 25), the tree search
returns element A at squared distance 100 (distance 10), while fullScan
returns element B at squared distance 25 (distance 5): the NE child holding
B is pruned although B is closer, because (50, 25) classifies to NW and the
NE region's distance is overestimated by the in-band branch of
distanceToRectangle.  The two query modes disagree on the distance value,
100 ≠ 25. -/
theorem treeSearch_fullScan_counterexample :
    quadtree 3 [exElemA, exElemB] exBounds = some exTree ∧
    nearestNeighborVal exTree 50 25 Option.none =
      some { element := some { exElemA with distance := some 100 },
             distance := some 100 } ∧
    fullScan [exElemA, exElemB] 50 25 = some exElemB ∧
    distQ exElemA.rectangle 50 25 = 100 ∧
    distQ exElemB.rectangle 50 25 = 25 ∧
    (100 : ℚ) ≠ 25 := by
  refine ⟨?t1, ?t2, ?t3, ?t4, ?t5, by norm_num⟩
  · norm_num [quadtree, insertAll, addElement, orNew, newNode, getQuadrant,
      exTree, exElemA, exElemB, exBounds]
  · norm_num +decide [nearestNeighborVal, nearestNeighbor, visitChild,
      bucketStep, quadWithPoint, getQuadrant, getMinDistance, getMinDistanceGo,
      freshBest, distQ, distanceToRectangle, pythagoreanDistance, ltW, exTree,
      exElemA, exElemB, exBounds]
  · norm_num [fullScan, fullScanGo, distQ, distanceToRectangle,
      pythagoreanDistance, ltW, exElemA, exElemB]
  · norm_num [distQ, distanceToRectangle, pythagoreanDistance, exElemA]
  · norm_num [distQ, distanceToRectangle, pythagoreanDistance, exElemB]

/-- C3 is refuted by the code: in the tree built over [exElemA, exElemB],
the NW child of the root has region [0,50]x[0,50] and stores exElemA
(rectangle [30,40]x[20,30]) in its bucket, yet at the query point (35, 25) —
inside both rectangles — the child's region distance (squared 625, distance
25) strictly exceeds the element's distance (squared 25, distance 5): the
region distance is not a lower bound for the distances of the elements the
region contains, so the prune test of nearestNeighbor is not admissible. -/
theorem regionDistance_lowerBound_counterexample :
    quadtree 3 [exElemA, exElemB] exBounds = some exTree ∧
    exTree = ONode.node exBounds []
      (ONode.node { top := 0, left := 0, bottom := 50, right := 50 } [exElemA]
        ONode.nil ONode.nil ONode.nil ONode.nil)
      (ONode.node { top := 0, left := 50, bottom := 50, right := 100 } [exElemB]
        ONode.nil ONode.nil ONode.nil ONode.nil)
      ONode.nil ONode.nil ∧
    distQ { top := 0, left := 0, bottom := 50, right := 50 } 35 25 = 625 ∧
    distQ exElemA.rectangle 35 25 = 25 ∧
    ¬ (625 : ℚ) ≤ 25 := by
  refine ⟨?u1, rfl, ?u2, ?u3, by norm_num⟩
  · norm_num [quadtree, insertAll, addElement, orNew, newNode, getQuadrant,
      exTree, exElemA, exElemB, exBounds]
  · norm_num [distQ, distanceToRectangle, pythagoreanDistance]
  · norm_num [distQ, distanceToRectangle, pythagoreanDistance, exElemA]

theorem leW_refl (a : Option ℚ) : leW a a := by
  cases a
  · trivial
  · exact le_refl _

theorem leW_trans {a b c : Option ℚ} (h1 : leW a b) (h2 : leW b c) :
    leW a c := by
  cases a <;> cases b <;> cases c <;>
    first
      | trivial
      | exact h2.elim
      | exact h1.elim
      | exact le_trans h1 h2

theorem leW_of_ltW {d : ℚ} {m : Option ℚ} (h : ltW d m) : leW (some d) m := by
  cases m
  · trivial
  · exact le_of_lt h

theorem getMinDistanceGo_state (x y : ℚ) :
    ∀ (es : List Element) (mn : Option ℚ) (best : Option (Element × ℚ)),
      (getMinDistanceGo x y es mn best).1 =
        es.map (fun e => { e with distance := some (distQ e.rectangle x y) }) := by
  intro es
  induction es with
  | nil => intro mn best; rfl
  | cons e rest ih =>
      intro mn best
      simp only [getMinDistanceGo, List.map_cons]
      split_ifs <;> simp [ih]

theorem getMinDistanceGo_some (x y : ℚ) :
    ∀ (es : List Element) (mn : Option ℚ) (p : Element × ℚ),
      ∃ q, (getMinDistanceGo x y es mn (some p)).2 = some q := by
  intro es
  induction es with
  | nil => intro mn p; exact ⟨p, rfl⟩
  | cons e rest ih =>
      intro mn p
      simp only [getMinDistanceGo]
      split_ifs
      · exact ih _ _
      · exact ih _ _

/-- getMinDistance on a non-empty bucket always returns an element: the
first scanned distance is finite and beats the initial `Infinity`. -/
theorem getMinDistanceVal_nonempty (x y : ℚ) (e : Element)
    (rest : List Element) :
    ∃ p, getMinDistanceVal (e :: rest) x y = some p := by
  unfold getMinDistanceVal getMinDistance
  simp only [getMinDistanceGo]
  rw [if_pos (show ltW (distQ e.rectangle x y) Option.none from trivial)]
  exact getMinDistanceGo_some x y rest _ _

theorem bucketStep_best (elems : List Element) (x y : ℚ) (b : Best) :
    leW (bucketStep elems x y b).2.distance b.distance ∧
    ((bucketStep elems x y b).2 = b ∨
      (bucketStep elems x y b).2.element.isSome = true) ∧
    (elems ≠ [] → (b.element.isSome = true ∨ b.distance = Option.none) →
      (bucketStep elems x y b).2.element.isSome = true) := by
  cases elems with
  | nil =>
      refine ⟨?z1, Or.inl rfl, fun h => absurd rfl h⟩
      exact leW_refl _
  | cons e rest =>
      obtain ⟨⟨pe, pd⟩, hp⟩ := getMinDistanceVal_nonempty x y e rest
      unfold bucketStep
      rw [if_pos (by simp)]
      dsimp only
      have hp2 : (getMinDistance (e :: rest) x y).2 = some (pe, pd) := hp
      rw [hp2]
      dsimp only
      split_ifs with hlt
      · exact ⟨leW_of_ltW hlt, Or.inr rfl, fun h1 h2 => rfl⟩
      · refine ⟨leW_refl _, Or.inl rfl, fun h1 h2 => ?z2⟩
        rcases h2 with h2 | h2
        · exact h2
        · rw [h2] at hlt
          exact absurd trivial hlt

/-- What the recursive search guarantees about its result, relative to the
best passed in: the result is a definite best, no farther than the passed
one, either unchanged or carrying an element, and carrying an element
whenever the subtree stores one and the passed best is the fresh
accumulator or already carries an element. -/
def searchOK (t : ONode) (b : Best) (r : Option Best) : Prop :=
  ∃ b2, r = some b2 ∧ leW b2.distance b.distance ∧
    (b2 = b ∨ b2.element.isSome = true) ∧
    (treeElems t ≠ [] → (b.element.isSome = true ∨ b.distance = Option.none) →
      b2.element.isSome = true)

theorem step_preserves_E {s p : Best}
    (h1 : s = p ∨ s.element.isSome = true)
    (h2 : p.element.isSome = true ∨ p.distance = Option.none) :
    s.element.isSome = true ∨ s.distance = Option.none := by
  rcases h1 with rfl | h1
  · exact h2
  · exact Or.inl h1

theorem step_preserves_some {s p : Best}
    (h1 : s = p ∨ s.element.isSome = true)
    (h2 : p.element.isSome = true) : s.element.isSome = true := by
  rcases h1 with rfl | h1
  · exact h2
  · exact h1

theorem best_or_trans {s p b : Best}
    (h1 : s = p ∨ s.element.isSome = true)
    (h2 : p = b ∨ p.element.isSome = true) :
    s = b ∨ s.element.isSome = true := by
  rcases h1 with rfl | h1
  · exact h2
  · exact Or.inr h1

/-- One guarded child visit of nearestNeighbor, given the recursive
guarantee for the child. -/
theorem visitChild_ok (c : ONode) (q : Quadrant) (pq : Option Quadrant)
    (x y : ℚ) (b : Best)
    (IH : ∀ b0 : Best, c ≠ ONode.nil →
      searchOK c b0 (nearestNeighbor c x y (some b0)).2) :
    leW (visitChild (nearestNeighbor c x y (some b)) c q pq x y b).2.distance
        b.distance ∧
    ((visitChild (nearestNeighbor c x y (some b)) c q pq x y b).2 = b ∨
      (visitChild (nearestNeighbor c x y (some b))
        c q pq x y b).2.element.isSome = true) ∧
    (treeElems c ≠ [] →
      (b.element.isSome = true ∨ b.distance = Option.none) →
      (visitChild (nearestNeighbor c x y (some b))
        c q pq x y b).2.element.isSome = true) := by
  cases c with
  | nil =>
      exact ⟨leW_refl _, Or.inl rfl, fun hne _ => absurd rfl hne⟩
  | node rc ec ac bc cc dc =>
      simp only [visitChild]
      split_ifs with hcond
      · obtain ⟨b2, hr, hle, hor, hne⟩ :=
          IH b (by simp)
        rw [hr]
        exact ⟨hle, hor, fun h1 h2 => hne h1 h2⟩
      · refine ⟨leW_refl _, Or.inl rfl, fun h1 h2 => ?v1⟩
        rcases h2 with h2 | h2
        · exact h2
        · exact absurd (Or.inr (by rw [h2]; trivial)) hcond

set_option maxHeartbeats 2000000 in
/-- The recursive search satisfies `searchOK` on every non-null tree. -/
theorem nearestNeighbor_searchOK :
    ∀ (t : ONode) (x y : ℚ) (b : Best), t ≠ ONode.nil →
      searchOK t b (nearestNeighbor t x y (some b)).2 := by
  intro t
  induction t with
  | nil => intro x y b h; exact absurd rfl h
  | node rect elems nw ne sw se ihnw ihne ihsw ihse =>
      intro x y b hnode
      have ihnw2 : ∀ b0 : Best, nw ≠ ONode.nil →
          searchOK nw b0 (nearestNeighbor nw x y (some b0)).2 :=
        fun b0 h => ihnw x y b0 h
      have ihne2 : ∀ b0 : Best, ne ≠ ONode.nil →
          searchOK ne b0 (nearestNeighbor ne x y (some b0)).2 :=
        fun b0 h => ihne x y b0 h
      have ihsw2 : ∀ b0 : Best, sw ≠ ONode.nil →
          searchOK sw b0 (nearestNeighbor sw x y (some b0)).2 :=
        fun b0 h => ihsw x y b0 h
      have ihse2 : ∀ b0 : Best, se ≠ ONode.nil →
          searchOK se b0 (nearestNeighbor se x y (some b0)).2 :=
        fun b0 h => ihse x y b0 h
      simp only [nearestNeighbor]
      dsimp only [Option.getD]
      obtain ⟨h0le, h0or, h0ne⟩ := bucketStep_best elems x y b
      generalize hpq : quadWithPoint rect x y = pq
      obtain ⟨h1le, h1or, h1ne⟩ :=
        visitChild_ok nw Quadrant.NW pq x y (bucketStep elems x y b).2 ihnw2
      generalize hB1 :
        (visitChild (nearestNeighbor nw x y (some (bucketStep elems x y b).2))
          nw Quadrant.NW pq x y (bucketStep elems x y b).2).2 = B1
      rw [hB1] at h1le h1or h1ne
      obtain ⟨h2le, h2or, h2ne⟩ := visitChild_ok ne Quadrant.NE pq x y B1 ihne2
      generalize hB2 :
        (visitChild (nearestNeighbor ne x y (some B1))
          ne Quadrant.NE pq x y B1).2 = B2
      rw [hB2] at h2le h2or h2ne
      obtain ⟨h3le, h3or, h3ne⟩ := visitChild_ok sw Quadrant.SW pq x y B2 ihsw2
      generalize hB3 :
        (visitChild (nearestNeighbor sw x y (some B2))
          sw Quadrant.SW pq x y B2).2 = B3
      rw [hB3] at h3le h3or h3ne
      obtain ⟨h4le, h4or, h4ne⟩ := visitChild_ok se Quadrant.SE pq x y B3 ihse2
      generalize hB4 :
        (visitChild (nearestNeighbor se x y (some B3))
          se Quadrant.SE pq x y B3).2 = B4
      rw [hB4] at h4le h4or h4ne
      refine ⟨B4, rfl, ?mle, ?mor, ?mne⟩
      · exact leW_trans h4le (leW_trans h3le (leW_trans h2le
          (leW_trans h1le h0le)))
      · exact best_or_trans h4or (best_or_trans h3or (best_or_trans h2or
          (best_or_trans h1or h0or)))
      · intro hne hE
        have hd : elems ≠ [] ∨ treeElems nw ≠ [] ∨ treeElems ne ≠ [] ∨
            treeElems sw ≠ [] ∨ treeElems se ≠ [] := by
          by_contra hcon
          push_neg at hcon
          obtain ⟨c1, c2, c3, c4, c5⟩ := hcon
          exact hne (by simp [treeElems, c1, c2, c3, c4, c5])
        have E0 := step_preserves_E h0or hE
        have E1 := step_preserves_E h1or E0
        have E2 := step_preserves_E h2or E1
        have E3 := step_preserves_E h3or E2
        rcases hd with hd | hd | hd | hd | hd
        · exact step_preserves_some h4or (step_preserves_some h3or
            (step_preserves_some h2or (step_preserves_some h1or
              (h0ne hd hE))))
        · exact step_preserves_some h4or (step_preserves_some h3or
            (step_preserves_some h2or (h1ne hd E0)))
        · exact step_preserves_some h4or (step_preserves_some h3or
            (h2ne hd E1))
        · exact step_preserves_some h4or (h3ne hd E2)
        · exact h4ne hd E3

/-- C10: the search accumulator is monotone.  For every non-empty (node)
subtree, query point, and caller-supplied current best — of finite or
infinite distance — the best returned by nearestNeighbor is at distance no
greater than the supplied best's distance. -/
theorem nearestNeighbor_monotone (rect : Rectangle) (elems : List Element)
    (nw ne sw se : ONode) (x y : ℚ) (b : Best) :
    ∃ b2, (nearestNeighbor (ONode.node rect elems nw ne sw se) x y
        (some b)).2 = some b2 ∧
      leW b2.distance b.distance := by
  obtain ⟨b2, h1, h2, -, -⟩ :=
    nearestNeighbor_searchOK (ONode.node rect elems nw ne sw se) x y b
      (by simp)
  exact ⟨b2, h1, h2⟩

theorem insertAll_rectOf :
    ∀ (es : List Element) (fuel : ℕ) (n t : ONode),
      insertAll fuel n es = some t → rectOf t = rectOf n := by
  intro es
  induction es with
  | nil =>
      intro fuel n t h
      obtain rfl : n = t := by simpa [insertAll] using h
      rfl
  | cons e rest ih =>
      intro fuel n t h
      simp only [insertAll] at h
      cases haddE : addElement fuel n e with
      | none => rw [haddE] at h; simp at h
      | some n2 =>
          rw [haddE] at h
          exact (ih fuel n2 t h).trans (addElement_rectOf fuel n e n2 haddE)

theorem insertAll_mem_mono :
    ∀ (es : List Element) (fuel : ℕ) (n t : ONode),
      insertAll fuel n es = some t →
      ∀ e2, e2 ∈ treeElems n → e2 ∈ treeElems t := by
  intro es
  induction es with
  | nil =>
      intro fuel n t h e2 hmem
      obtain rfl : n = t := by simpa [insertAll] using h
      exact hmem
  | cons e rest ih =>
      intro fuel n t h e2 hmem
      simp only [insertAll] at h
      cases haddE : addElement fuel n e with
      | none => rw [haddE] at h; simp at h
      | some n2 =>
          rw [haddE] at h
          exact ih fuel n2 t h e2
            ((addElement_mem fuel n e n2 haddE e2).mpr (Or.inl hmem))

/-- A null best argument behaves exactly like passing the fresh
accumulator. -/
theorem nearestNeighbor_none_best (t : ONode) (x y : ℚ) :
    nearestNeighbor t x y Option.none =
      nearestNeighbor t x y (some freshBest) := by
  cases t <;> rfl

/-- C7: the point query returns none iff the tree is empty.  quadtree on an
empty element list returns the absent tree and searching it yields none;
and for every tree built from a non-empty element list (with enough
insertion fuel), the search returns a best carrying a definite element, for
every query point. -/
theorem quadtree_empty_nonempty :
    (∀ (fuel : ℕ) (B : Rectangle) (x y : ℚ),
        quadtree fuel [] B = some ONode.nil ∧
        (nearestNeighbor ONode.nil x y Option.none).2 = Option.none) ∧
    (∀ (fuel : ℕ) (es : List Element) (B : Rectangle) (t : ONode) (x y : ℚ),
        es ≠ [] → quadtree fuel es B = some t →
        ∃ b2 e, (nearestNeighbor t x y Option.none).2 = some b2 ∧
          b2.element = some e) := by
  constructor
  · intro fuel B x y
    exact ⟨by simp [quadtree], rfl⟩
  · intro fuel es B t x y hne hbuild
    unfold quadtree at hbuild
    rw [if_neg (by simpa [List.length_eq_zero] using hne)] at hbuild
    cases es with
    | nil => exact absurd rfl hne
    | cons e rest =>
        have hmem0 : e ∈ treeElems t := by
          simp only [insertAll] at hbuild
          cases haddE : addElement fuel (newNode B) e with
          | none => rw [haddE] at hbuild; simp at hbuild
          | some n2 =>
              rw [haddE] at hbuild
              exact insertAll_mem_mono rest fuel n2 t hbuild e
                ((addElement_mem fuel _ e n2 haddE e).mpr (Or.inr rfl))
        have htne : treeElems t ≠ [] := List.ne_nil_of_mem hmem0
        have htnode : t ≠ ONode.nil := by
          intro hh
          rw [hh] at htne
          exact htne rfl
        obtain ⟨b2, hr, -, -, hnonempty⟩ :=
          nearestNeighbor_searchOK t x y freshBest htnode
        have hsome : b2.element.isSome = true := hnonempty htne (Or.inr rfl)
        obtain ⟨e2, he2⟩ := Option.isSome_iff_exists.mp hsome
        refine ⟨b2, e2, ?w1, he2⟩
        rw [nearestNeighbor_none_best]
        exact hr

/-- Witness for C7, part 2, on the concrete build of [exElemA, exElemB]
over exBounds, queried at (50, 25). -/
theorem quadtree_empty_nonempty_witness :
    ∃ b2 e, (nearestNeighbor exTree 50 25 Option.none).2 = some b2 ∧
      b2.element = some e :=
  quadtree_empty_nonempty.2 3 [exElemA, exElemB] exBounds exTree 50 25
    (by simp)
    (by norm_num [quadtree, insertAll, addElement, orNew, newNode,
      getQuadrant, exTree, exElemA, exElemB, exBounds])

/-- Reference first-minimum: fold from the right, keeping the earlier
element on ties (`≤`).  Used to characterize both scan loops. -/
def firstMinSpec (x y : ℚ) : List Element → Option (Element × ℚ)
  | [] => Option.none
  | e :: rest =>
      match firstMinSpec x y rest with
      | Option.none => some (e, distQ e.rectangle x y)
      | some (e2, d2) =>
          if distQ e.rectangle x y ≤ d2 then some (e, distQ e.rectangle x y)
          else some (e2, d2)

theorem firstMinSpec_none_iff (x y : ℚ) (es : List Element) :
    firstMinSpec x y es = Option.none ↔ es = [] := by
  cases es with
  | nil => simp [firstMinSpec]
  | cons e rest =>
      simp only [firstMinSpec]
      cases firstMinSpec x y rest with
      | none => simp
      | some p =>
          obtain ⟨e2, d2⟩ := p
          dsimp only
          split_ifs <;> simp

set_option maxHeartbeats 1000000 in
/-- The strict-minimum loop of getMinDistance computes the first minimum:
its returned value is the reference first minimum (with the distance field
written onto the returned element), filtered against the incoming running
minimum. -/
theorem getMinDistanceGo_val (x y : ℚ) :
    ∀ (es : List Element) (mn : Option ℚ) (best : Option (Element × ℚ)),
      (getMinDistanceGo x y es mn best).2 =
        match firstMinSpec x y es with
        | Option.none => best
        | some (e, d) =>
            if ltW d mn then some ({ e with distance := some d }, d)
            else best := by
  intro es
  induction es with
  | nil => intro mn best; rfl
  | cons e rest ih =>
      intro mn best
      simp only [getMinDistanceGo, firstMinSpec]
      by_cases hlt : ltW (distQ e.rectangle x y) mn
      · rw [if_pos hlt]
        dsimp only
        rw [ih]
        cases hF : firstMinSpec x y rest with
        | none =>
            dsimp only
            rw [if_pos hlt]
        | some p =>
            obtain ⟨e2, d2⟩ := p
            dsimp only
            by_cases hle : distQ e.rectangle x y ≤ d2
            · rw [if_pos hle]
              dsimp only
              rw [if_neg (by simpa [ltW] using hle), if_pos hlt]
            · rw [if_neg hle]
              dsimp only
              have hd2 : d2 < distQ e.rectangle x y := lt_of_not_le hle
              rw [if_pos (by simpa [ltW] using hd2)]
              cases mn with
              | none => rw [if_pos (show ltW d2 Option.none from trivial)]
              | some m => rw [if_pos (show ltW d2 (some m) from
                  lt_trans hd2 hlt)]
      · rw [if_neg hlt]
        dsimp only
        rw [ih]
        cases hF : firstMinSpec x y rest with
        | none =>
            dsimp only
            rw [if_neg hlt]
        | some p =>
            obtain ⟨e2, d2⟩ := p
            dsimp only
            by_cases hle : distQ e.rectangle x y ≤ d2
            · rw [if_pos hle]
              dsimp only
              rw [if_neg hlt]
              cases mn with
              | none => exact absurd trivial hlt
              | some m =>
                  rw [if_neg (show ¬ ltW d2 (some m) from fun hcon =>
                    hlt (lt_of_le_of_lt hle hcon))]
            · rw [if_neg hle]

set_option maxHeartbeats 1000000 in
/-- The strict-minimum loop of fullScan computes the same first minimum. -/
theorem fullScanGo_val (x y : ℚ) :
    ∀ (es : List Element) (mn : Option ℚ) (closest : Option Element),
      fullScanGo x y es mn closest =
        match firstMinSpec x y es with
        | Option.none => closest
        | some (e, d) => if ltW d mn then some e else closest := by
  intro es
  induction es with
  | nil => intro mn closest; rfl
  | cons e rest ih =>
      intro mn closest
      simp only [fullScanGo, firstMinSpec]
      by_cases hlt : ltW (distQ e.rectangle x y) mn
      · rw [if_pos hlt]
        rw [ih]
        cases hF : firstMinSpec x y rest with
        | none =>
            dsimp only
            rw [if_pos hlt]
        | some p =>
            obtain ⟨e2, d2⟩ := p
            dsimp only
            by_cases hle : distQ e.rectangle x y ≤ d2
            · rw [if_pos hle]
              dsimp only
              rw [if_neg (by simpa [ltW] using hle), if_pos hlt]
            · rw [if_neg hle]
              dsimp only
              have hd2 : d2 < distQ e.rectangle x y := lt_of_not_le hle
              rw [if_pos (by simpa [ltW] using hd2)]
              cases mn with
              | none => rw [if_pos (show ltW d2 Option.none from trivial)]
              | some m => rw [if_pos (show ltW d2 (some m) from
                  lt_trans hd2 hlt)]
      · rw [if_neg hlt]
        rw [ih]
        cases hF : firstMinSpec x y rest with
        | none =>
            dsimp only
            rw [if_neg hlt]
        | some p =>
            obtain ⟨e2, d2⟩ := p
            dsimp only
            by_cases hle : distQ e.rectangle x y ≤ d2
            · rw [if_pos hle]
              dsimp only
              rw [if_neg hlt]
              cases mn with
              | none => exact absurd trivial hlt
              | some m =>
                  rw [if_neg (show ¬ ltW d2 (some m) from fun hcon =>
                    hlt (lt_of_le_of_lt hle hcon))]
            · rw [if_neg hle]

/-- Element `e` is the first-seen minimum of the list: it occurs at a
position `k` (same payload and rectangle; the transient distance field is
disregarded), no element of the list is strictly closer, and every element
strictly before position `k` is strictly farther. -/
def FirstMin (es : List Element) (x y : ℚ) (e : Element) : Prop :=
  ∃ k, ∃ hk : k < es.length, stripE (es.get ⟨k, hk⟩) = stripE e ∧
    (∀ j (hj : j < es.length),
      distQ e.rectangle x y ≤ distQ (es.get ⟨j, hj⟩).rectangle x y) ∧
    (∀ j (hj : j < es.length), j < k →
      distQ e.rectangle x y < distQ (es.get ⟨j, hj⟩).rectangle x y)

theorem FirstMin_congr {es : List Element} {x y : ℚ} {e1 e2 : Element}
    (hst : stripE e1 = stripE e2) (h : FirstMin es x y e1) :
    FirstMin es x y e2 := by
  have hrect : e1.rectangle = e2.rectangle := by
    have h2 := congrArg Element.rectangle hst
    simpa [stripE] using h2
  obtain ⟨k, hk, h1, h2, h3⟩ := h
  refine ⟨k, hk, h1.trans hst, ?f1, ?f2⟩
  · rw [← hrect]
    exact h2
  · rw [← hrect]
    exact h3

set_option maxHeartbeats 1000000 in
/-- The reference first minimum really is the first-seen minimum. -/
theorem firstMinSpec_first (x y : ℚ) :
    ∀ (es : List Element) (e : Element) (d : ℚ),
      firstMinSpec x y es = some (e, d) →
      d = distQ e.rectangle x y ∧ FirstMin es x y e := by
  intro es
  induction es with
  | nil => intro e d h; simp [firstMinSpec] at h
  | cons e0 rest ih =>
      intro e d h
      simp only [firstMinSpec] at h
      cases hF : firstMinSpec x y rest with
      | none =>
          rw [hF] at h
          obtain rfl := (firstMinSpec_none_iff x y rest).mp hF
          dsimp only at h
          have hinj := Option.some.inj h
          obtain rfl : e0 = e := congrArg Prod.fst hinj
          obtain rfl : distQ e0.rectangle x y = d := congrArg Prod.snd hinj
          refine ⟨rfl, 0, by simp, rfl, ?g1, ?g2⟩
          · intro j hj
            cases j with
            | zero => exact le_refl _
            | succ j => exact absurd hj (by simp)
          · intro j hj hj0
            exact absurd hj0 (Nat.not_lt_zero j)
      | some p =>
          obtain ⟨e2, d2⟩ := p
          rw [hF] at h
          dsimp only at h
          obtain ⟨hd2, hFM⟩ := ih e2 d2 hF
          obtain ⟨k2, hk2, hs2, hmin2, hbef2⟩ := hFM
          by_cases hle : distQ e0.rectangle x y ≤ d2
          · rw [if_pos hle] at h
            have hinj := Option.some.inj h
            obtain rfl : e0 = e := congrArg Prod.fst hinj
            obtain rfl : distQ e0.rectangle x y = d := congrArg Prod.snd hinj
            refine ⟨rfl, 0, by simp, rfl, ?g3, ?g4⟩
            · intro j hj
              cases j with
              | zero => exact le_refl _
              | succ j =>
                  calc distQ e0.rectangle x y ≤ d2 := hle
                    _ = distQ e2.rectangle x y := hd2
                    _ ≤ _ := hmin2 j (Nat.lt_of_succ_lt_succ hj)
            · intro j hj hj0
              exact absurd hj0 (Nat.not_lt_zero j)
          · rw [if_neg hle] at h
            have hinj := Option.some.inj h
            obtain rfl : e2 = e := congrArg Prod.fst hinj
            obtain rfl : d2 = d := congrArg Prod.snd hinj
            have hgt : distQ e2.rectangle x y < distQ e0.rectangle x y := by
              rw [← hd2]
              exact lt_of_not_le hle
            refine ⟨hd2, k2 + 1, by simpa using hk2, hs2, ?g6, ?g7⟩
            · intro j hj
              cases j with
              | zero => exact le_of_lt hgt
              | succ j => exact hmin2 j (Nat.lt_of_succ_lt_succ hj)
            · intro j hj hjk
              cases j with
              | zero => exact hgt
              | succ j =>
                  exact hbef2 j (Nat.lt_of_succ_lt_succ hj)
                    (Nat.lt_of_succ_lt_succ hjk)

/-- C8: first-seen wins on exact ties in both query modes.  Whenever the
bucket scan getMinDistance or the linear fullScan returns an element, that
element is the first one in iteration order attaining the minimum distance:
no element is strictly closer, and every earlier element is strictly
farther, because an element replaces the running best only when its
distance is strictly smaller. -/
theorem firstSeen_wins (es : List Element) (x y : ℚ) (e : Element) :
    ((getMinDistanceVal es x y).map Prod.fst = some e →
      FirstMin es x y e) ∧
    (fullScan es x y = some e → FirstMin es x y e) := by
  have hgv : getMinDistanceVal es x y =
      match firstMinSpec x y es with
      | Option.none => Option.none
      | some (e0, d0) => some ({ e0 with distance := some d0 }, d0) := by
    unfold getMinDistanceVal getMinDistance
    rw [getMinDistanceGo_val]
    cases firstMinSpec x y es with
    | none => rfl
    | some p =>
        obtain ⟨e0, d0⟩ := p
        dsimp only
        rw [if_pos (show ltW d0 Option.none from trivial)]
  have hfv : fullScan es x y =
      match firstMinSpec x y es with
      | Option.none => Option.none
      | some (e0, d0) => some e0 := by
    unfold fullScan
    rw [fullScanGo_val]
    cases firstMinSpec x y es with
    | none => rfl
    | some p =>
        obtain ⟨e0, d0⟩ := p
        dsimp only
        rw [if_pos (show ltW d0 Option.none from trivial)]
  constructor
  · intro h
    rw [hgv] at h
    cases hF : firstMinSpec x y es with
    | none => rw [hF] at h; simp at h
    | some p =>
        obtain ⟨e0, d0⟩ := p
        rw [hF] at h
        dsimp only at h
        simp only [Option.map_some'] at h
        obtain rfl := Option.some.inj h
        exact FirstMin_congr (show stripE e0 = _ from rfl)
          (firstMinSpec_first x y es e0 d0 hF).2
  · intro h
    rw [hfv] at h
    cases hF : firstMinSpec x y es with
    | none => rw [hF] at h; simp at h
    | some p =>
        obtain ⟨e0, d0⟩ := p
        rw [hF] at h
        dsimp only at h
        obtain rfl := Option.some.inj h
        exact (firstMinSpec_first x y es e0 d0 hF).2

/-- First element of the tie-witness pair: rectangle [0,10]x[0,10]. -/
def exTieA : Element :=
  { element := 5, rectangle := { top := 0, left := 0, bottom := 10, right := 10 } }

/-- Second element of the tie-witness pair: rectangle [20,30]x[0,10]; from
the query point (15, 5) both elements are at distance 5 (squared 25). -/
def exTieB : Element :=
  { element := 6, rectangle := { top := 0, left := 20, bottom := 10, right := 30 } }

/-- Witness for C8 on an exact tie: fullScan on [exTieA, exTieB] from
(15, 5), where both elements are equidistant, returns the first-seen
element exTieA. -/
theorem firstSeen_wins_witness : FirstMin [exTieA, exTieB] 15 5 exTieA :=
  (firstSeen_wins [exTieA, exTieB] 15 5 exTieA).2
    (by norm_num [fullScan, fullScanGo, distQ, distanceToRectangle,
      pythagoreanDistance, ltW, exTieA, exTieB])

/-- C9 is refuted as stated: running the search on a one-element tree from
the query point (0, 0) does not leave the tree unchanged; getMinDistance
writes the computed distance (squared 1300) onto the stored element's
`distance` property. -/
theorem search_mutates_counterexample :
    (nearestNeighbor
        (ONode.node exBounds [exElemA] ONode.nil ONode.nil ONode.nil ONode.nil)
        0 0 Option.none).1 ≠
      ONode.node exBounds [exElemA] ONode.nil ONode.nil ONode.nil ONode.nil := by
  norm_num +decide [nearestNeighbor, visitChild, bucketStep, quadWithPoint,
    getQuadrant, getMinDistance, getMinDistanceGo, freshBest, distQ,
    distanceToRectangle, pythagoreanDistance, ltW, exElemA, exBounds]

theorem bucketStep_strip (elems : List Element) (x y : ℚ) (b : Best) :
    ((bucketStep elems x y b).1).map stripE = elems.map stripE := by
  unfold bucketStep
  dsimp only
  split_ifs with h
  · unfold getMinDistance
    rw [getMinDistanceGo_state, List.map_map]
    rfl
  · rfl

theorem visitChild_strip (c : ONode) (q : Quadrant) (pq : Option Quadrant)
    (x y : ℚ) (b : Best) (res : ONode × Option Best)
    (hres : stripT res.1 = stripT c) :
    stripT (visitChild res c q pq x y b).1 = stripT c := by
  cases c with
  | nil => rfl
  | node rc ec ac bc cc dc =>
      simp only [visitChild]
      split_ifs
      · exact hres
      · rfl

/-- C9, amended: the search is not mutation-free, but its only effect on
the shared tree is through the transient per-element `distance` scratch
fields: erasing those fields from the tree the search hands back gives back
exactly the erased original - rectangles, payloads, bucket membership and
order, and the tree structure are untouched, for every tree, query point
and caller-supplied best. -/
theorem nearestNeighbor_strip :
    ∀ (t : ONode) (x y : ℚ) (b : Option Best),
      stripT (nearestNeighbor t x y b).1 = stripT t := by
  intro t
  induction t with
  | nil => intro x y b; rfl
  | node rect elems nw ne sw se ihnw ihne ihsw ihse =>
      intro x y b
      simp only [nearestNeighbor]
      simp only [stripT]
      congr 1
      · exact bucketStep_strip elems x y (b.getD freshBest)
      · exact visitChild_strip nw Quadrant.NW _ x y _ _ (ihnw x y _)
      · exact visitChild_strip ne Quadrant.NE _ x y _ _ (ihne x y _)
      · exact visitChild_strip sw Quadrant.SW _ x y _ _ (ihsw x y _)
      · exact visitChild_strip se Quadrant.SE _ x y _ _ (ihse x y _)

end NN
